import Mathlib

/-!
# The response formatter of `src/App.jsx`

A shallow embedding of `formatResponse` (App.jsx, lines 46-105) together with the
JavaScript string and regular-expression operations it calls.

A JavaScript string is modelled as a list of characters.  Every operation used by
`formatResponse` inspects characters of the Basic Multilingual Plane only
(`*`, `-`, `.`, the digits, white space, line terminators), so reading one list
element as one character instead of one UTF-16 code unit does not change a result.
-/

namespace App

/-- A JavaScript string: the sequence of its characters. -/
abbrev Str := List Char

/-! ## Character classes -/

/-- ECMAScript `LineTerminator`: LF, CR, LS, PS.  The regular-expression atom `.`
(without the `s` flag) matches every character but these. -/
def isLineTerminator (c : Char) : Bool :=
  c.toNat == 0x0A || c.toNat == 0x0D || c.toNat == 0x2028 || c.toNat == 0x2029

/-- ECMAScript `WhiteSpace`: TAB, VT, FF, ZWNBSP and the Unicode category `Zs`. -/
def isWhiteSpace (c : Char) : Bool :=
  c.toNat == 0x09 || c.toNat == 0x0B || c.toNat == 0x0C || c.toNat == 0x20 ||
  c.toNat == 0xA0 || c.toNat == 0x1680 || (0x2000 ≤ c.toNat && c.toNat ≤ 0x200A) ||
  c.toNat == 0x202F || c.toNat == 0x205F || c.toNat == 0x3000 || c.toNat == 0xFEFF

/-- The characters removed by `String.prototype.trim` and matched by `\s`:
`WhiteSpace` and `LineTerminator`. -/
def isSpace (c : Char) : Bool := isWhiteSpace c || isLineTerminator c

/-- The characters matched by `\d`: the ASCII digits. -/
def isDigit (c : Char) : Bool := 0x30 ≤ c.toNat && c.toNat ≤ 0x39

/-- The characters matched by `.`. -/
def isDot (c : Char) : Bool := !isLineTerminator c

/-! ## String methods -/

/-- `s.trimStart()`. -/
def trimStart (s : Str) : Str := s.dropWhile isSpace

/-- `s.trimEnd()`. -/
def trimEnd (s : Str) : Str := (s.reverse.dropWhile isSpace).reverse

/-- `s.trim()`. -/
def trim (s : Str) : Str := trimEnd (trimStart s)

/-- `s.startsWith(p)`. -/
def startsWith (s p : Str) : Bool := p.isPrefixOf s

/-- `s.endsWith(p)`. -/
def endsWith (s p : Str) : Bool := p.isSuffixOf s

/-- `s.includes(p)`: `p` occurs at some position of `s`. -/
def includes : Str → Str → Bool
  | [], p => p.isPrefixOf []
  | c :: s, p => p.isPrefixOf (c :: s) || includes s p

/-- `s.substring(start)` for a non-negative `start`. -/
def substring (s : Str) (start : Nat) : Str := s.drop start

/-- The position a relative index of `slice` stands for: a negative index counts
from the end, and the result is clamped to `0 .. len`. -/
def relIndex (len : Nat) (i : Int) : Nat :=
  if i < 0 then (Int.ofNat len + i).toNat else min i.toNat len

/-- `s.slice(start, stop)`: the characters from position `start` up to position
`stop`, empty when `stop` does not come after `start`. -/
def slice (s : Str) (start stop : Int) : Str :=
  (s.take (relIndex s.length stop)).drop (relIndex s.length start)

/-- `s.split('\n')`: the maximal runs without a line feed; never empty. -/
def splitLines : Str → List Str
  | [] => [[]]
  | c :: s =>
    if c = '\n' then [] :: splitLines s
    else match splitLines s with
      | [] => [[c]]
      | l :: ls => (c :: l) :: ls

/-! ## Regular expressions

The four patterns of `formatResponse` are sequences of single-character atoms,
each taken once, one or more times greedily, any number of times greedily, or any
number of times lazily.  `matchHere` is a backtracking matcher for such sequences:
it answers the length of the first match, in the priority order of ECMAScript, that
starts at the head of the input. -/

/-- One quantified atom of a pattern. -/
inductive Item where
  /-- `a` : one character of the class. -/
  | one (p : Char → Bool)
  /-- `a+` : one or more, greedy. -/
  | plus (p : Char → Bool)
  /-- `a*` : zero or more, greedy. -/
  | star (p : Char → Bool)
  /-- `a*?` : zero or more, lazy. -/
  | lazyStar (p : Char → Bool)

/-- Matching a pattern against the end of the input. -/
def matchEnd : List Item → Option Nat
  | [] => some 0
  | Item.one _ :: _ => none
  | Item.plus _ :: _ => none
  | Item.star _ :: r => matchEnd r
  | Item.lazyStar _ :: r => matchEnd r

/-- Matching a pattern against an input whose head is `c`; `next` matches a pattern
against the rest of the input. -/
def matchStep (c : Char) (next : List Item → Option Nat) : List Item → Option Nat
  | [] => some 0
  | Item.one p :: r => if p c then (next r).map (· + 1) else none
  | Item.plus p :: r => if p c then (next (Item.star p :: r)).map (· + 1) else none
  | Item.star p :: r =>
    if p c then
      match next (Item.star p :: r) with
      | some k => some (k + 1)
      | none => matchStep c next r
    else matchStep c next r
  | Item.lazyStar p :: r =>
    match matchStep c next r with
    | some k => some k
    | none => if p c then (next (Item.lazyStar p :: r)).map (· + 1) else none

/-- Length of the match of the pattern at the head of `s`, if there is one. -/
def matchHere : Str → List Item → Option Nat
  | [] => matchEnd
  | c :: s => matchStep c (matchHere s)

/-- The literal character `c` as an atom. -/
def lit (c : Char) : Item := Item.one (· == c)

/-- `/^\d+\./` (line 66). -/
def reNumbered : List Item := [Item.plus isDigit, lit '.']

/-- `/^\d+/` (line 69). -/
def reDigits : List Item := [Item.plus isDigit]

/-- `/^\d+\.\s*/` (line 70). -/
def reNumberPrefix : List Item := [Item.plus isDigit, lit '.', Item.star isSpace]

/-- `/(\*\*.*?\*\*)/g` (line 77); the capturing group is the whole pattern. -/
def reBold : List Item := [lit '*', lit '*', Item.lazyStar isDot, lit '*', lit '*']

/-- `re.test(s)` for a pattern anchored with `^`: it can match at position 0 only. -/
def test (re : List Item) (s : Str) : Bool := (matchHere s re).isSome

/-- `s.match(re)` for a pattern anchored with `^` and without the `g` flag: `null`
(`none`) or the match array, of which element 0, the matched text, is kept. -/
def jsMatch (s : Str) (re : List Item) : Option Str := (matchHere s re).map s.take

/-- `s.replace(re, '')` for a pattern anchored with `^` and without the `g` flag. -/
def replaceEmpty (s : Str) (re : List Item) : Str :=
  match matchHere s re with
  | some k => s.drop k
  | none => s

/-- Puts `c` in front of the first fragment. -/
def consHead (c : Char) : List Str → List Str
  | [] => [[c]]
  | f :: fs => (c :: f) :: fs

/-- The loop of `s.split(re)` for a pattern that is one capturing group and matches
no empty text (the bold pattern matches four characters or more): at a position where
the pattern matches, the fragment read so far is closed, the captured text is emitted
and the scan goes on behind the match; elsewhere the scan advances by one character.
At the end of the text the fragment read so far is closed.  `fuel` bounds the number
of positions visited. -/
def splitFuel (re : List Item) : Nat → Str → Option (List Str)
  | _, [] => some [[]]
  | 0, _ :: _ => none
  | fuel + 1, c :: s =>
    match matchHere (c :: s) re with
    | some (k + 1) => (splitFuel re fuel (s.drop k)).map (fun fs => [] :: (c :: s).take (k + 1) :: fs)
    | _ => (splitFuel re fuel s).map (consHead c)

/-- `s.split(re)` for a non-empty `s` and a pattern that is one capturing group. -/
def split (s : Str) (re : List Item) : Option (List Str) := splitFuel re s.length s

/-! ## The formatter -/

/-- A styled fragment of a paragraph: a string child of the `<p>` element, or a
`<strong className="bold-text">` child. -/
inductive Span where
  | PlainText (text : Str)
  | Bold (text : Str)
  deriving DecidableEq, Repr

/-- The element built for one line: `div.bullet-point`, `div.numbered-point`
(whose number is rendered as `index` followed by a period), the `<p>` of the bold
branch and the `<p>` of the paragraph branch. -/
inductive Block where
  | BulletItem (text : Str)
  | NumberedItem (index : Str) (text : Str)
  | RichParagraph (spans : List Span)
  | PlainParagraph (text : Str)
  deriving DecidableEq, Repr

/-- A React element together with its `key`. -/
structure Element where
  key : Nat
  block : Block
  deriving DecidableEq, Repr

/-- The ways an evaluation can fail: the `TypeError` thrown by `null[0]`, and the
scan of `split` running out of fuel. -/
inductive Error where
  | typeError
  | outOfFuel
  deriving DecidableEq, Repr

/-- The child built from one fragment of the bold branch (lines 80-88). -/
def partSpan (part : Str) : Span :=
  if startsWith part ['*', '*'] && endsWith part ['*', '*'] then Span.Bold (slice part 2 (-2))
  else Span.PlainText part

/-- The callback of `.map` (lines 52-103): the element of one line, or `null`. -/
def formatLine (line : Str) (index : Nat) : Except Error (Option Element) :=
  let trimmedLine := trim line
  if startsWith trimmedLine ['*'] || startsWith trimmedLine ['-'] then
    pure (some ⟨index, Block.BulletItem (trim (substring trimmedLine 1))⟩)
  else if test reNumbered trimmedLine then
    match jsMatch trimmedLine reDigits with
    | none => throw Error.typeError
    | some m =>
      pure (some ⟨index, Block.NumberedItem m (replaceEmpty trimmedLine reNumberPrefix)⟩)
  else if includes trimmedLine ['*', '*'] then
    match split trimmedLine reBold with
    | none => throw Error.outOfFuel
    | some parts => pure (some ⟨index, Block.RichParagraph (parts.map partSpan)⟩)
  else if trimmedLine ≠ [] then
    pure (some ⟨index, Block.PlainParagraph trimmedLine⟩)
  else
    pure none

/-- The value returned by `formatResponse`: the empty string of the early return,
or the array of elements. -/
inductive Rendered where
  | emptyText
  | elements (es : List Element)
  deriving DecidableEq, Repr

/-- `.map(callback)` over the lines, with the index of each line. -/
def mapLines : List Str → Nat → Except Error (List (Option Element))
  | [], _ => pure []
  | l :: ls, i => do
    let e ← formatLine l i
    let es ← mapLines ls (i + 1)
    pure (e :: es)

/-- `formatResponse` (lines 46-105). -/
def formatResponse (text : Str) : Except Error Rendered :=
  if text = [] then pure Rendered.emptyText
  else do
    let es ← mapLines (splitLines text) 0
    pure (Rendered.elements (es.filterMap id))

/-- The blocks of a rendered value, in order; the empty string has none. -/
def Rendered.blocks : Rendered → List Block
  | Rendered.emptyText => []
  | Rendered.elements es => es.map Element.block

/-- `formatResponse` seen as a function from a string to a sequence of blocks. -/
def format (text : Str) : Except Error (List Block) :=
  (formatResponse text).map Rendered.blocks

/-- The block that one line yields on its own, if it yields one. -/
def lineBlock (line : Str) : Option Block :=
  match formatLine line 0 with
  | Except.ok (some e) => some e.block
  | _ => none

/-- The text a span is read back as: a plain span as its text, a bold span as its
text between two `**` pairs. -/
def Span.source : Span → Str
  | Span.PlainText text => text
  | Span.Bold text => ['*', '*'] ++ text ++ ['*', '*']

/-- The line a sequence of spans is read back as. -/
def spansSource (spans : List Span) : Str := (spans.map Span.source).flatten

/-! ## The matcher on the patterns of the formatter -/

theorem matchHere_nil (s : Str) : matchHere s [] = some 0 := by
  cases s <;> rfl

theorem matchHere_cons (c : Char) (s : Str) (re : List Item) :
    matchHere (c :: s) re = matchStep c (matchHere s) re := rfl

theorem matchHere_star_single (p : Char → Bool) (s : Str) :
    matchHere s [Item.star p] = some (s.takeWhile p).length := by
  induction s with
  | nil => rfl
  | cons c s ih =>
    rw [matchHere_cons]
    by_cases h : p c = true
    · simp [matchStep, h, ih, List.takeWhile]
    · simp [matchStep, h, List.takeWhile]

/-- After a run of characters of the class, a greedy star that matches goes on
matching with the run in front. -/
theorem matchHere_star_run (p : Char → Bool) (r : List Item) (d rest : Str) (k : Nat)
    (hd : ∀ c ∈ d, p c = true) (h : matchHere rest (Item.star p :: r) = some k) :
    matchHere (d ++ rest) (Item.star p :: r) = some (k + d.length) := by
  induction d with
  | nil => simpa using h
  | cons c d ih =>
    have hc : p c = true := hd c (List.mem_cons_self _ _)
    have ih2 := ih (fun x hx => hd x (List.mem_cons_of_mem _ hx))
    rw [List.cons_append, matchHere_cons]
    simp [matchStep, hc, ih2, Nat.add_assoc]

theorem splitFuel_total (re : List Item) (n : Nat) :
    ∀ s : Str, s.length ≤ n → ∃ fs, splitFuel re n s = some fs := by
  induction n with
  | zero =>
    intro s hs
    cases s with
    | nil => exact ⟨_, rfl⟩
    | cons c s => simp at hs
  | succ n ih =>
    intro s hs
    cases s with
    | nil => exact ⟨_, rfl⟩
    | cons c s =>
      have hs2 : s.length ≤ n := by simpa using hs
      unfold splitFuel
      split
      · rename_i k _
        obtain ⟨fs, hfs⟩ := ih (s.drop k) (by rw [List.length_drop]; omega)
        exact ⟨_, by rw [hfs]; rfl⟩
      · obtain ⟨fs, hfs⟩ := ih s hs2
        exact ⟨_, by rw [hfs]; rfl⟩

theorem splitFuel_stable (re : List Item) (n : Nat) :
    ∀ (m : Nat) (s : Str), s.length ≤ n → s.length ≤ m →
      splitFuel re n s = splitFuel re m s := by
  induction n with
  | zero =>
    intro m s hn hm
    cases s with
    | nil => cases m <;> rfl
    | cons c s => simp at hn
  | succ n ih =>
    intro m s hn hm
    cases s with
    | nil => cases m <;> rfl
    | cons c s =>
      cases m with
      | zero => simp at hm
      | succ m =>
        have hn2 : s.length ≤ n := by simpa using hn
        have hm2 : s.length ≤ m := by simpa using hm
        unfold splitFuel
        split
        · rename_i k _
          rw [ih m (s.drop k) (by rw [List.length_drop]; omega)
            (by rw [List.length_drop]; omega)]
        · rw [ih m s hn2 hm2]

theorem split_nil (re : List Item) : split [] re = some [[]] := rfl

/-- Where the pattern matches, `split` closes the current fragment, emits the
match and continues behind it. -/
theorem split_cons_match (re : List Item) (c : Char) (s : Str) (k : Nat)
    (h : matchHere (c :: s) re = some (k + 1)) :
    split (c :: s) re =
      (split (s.drop k) re).map (fun fs => [] :: (c :: s).take (k + 1) :: fs) := by
  unfold split
  rw [List.length_cons]
  conv_lhs => unfold splitFuel
  simp only [h]
  rw [splitFuel_stable re s.length (s.drop k).length (s.drop k)
    (by rw [List.length_drop]; omega) (Nat.le_refl _)]

/-- Where the pattern does not match, the character joins the current fragment. -/
theorem split_cons_nomatch (re : List Item) (c : Char) (s : Str)
    (h : matchHere (c :: s) re = none) :
    split (c :: s) re = (split s re).map (consHead c) := by
  unfold split
  rw [List.length_cons]
  conv_lhs => unfold splitFuel
  simp only [h]

theorem split_total (re : List Item) (s : Str) : ∃ fs, split s re = some fs :=
  splitFuel_total re s.length s (Nat.le_refl _)

/-! ## Every line is formatted, and on its own -/

theorem test_reNumbered_head (t : Str) (h : test reNumbered t = true) :
    ∃ c s, t = c :: s ∧ isDigit c = true := by
  cases t with
  | nil => simp [test, matchHere, matchEnd, reNumbered] at h
  | cons c s =>
    refine ⟨c, s, rfl, ?_⟩
    by_contra hc
    simp [test, matchHere, matchStep, reNumbered, hc] at h

theorem matchHere_reDigits (c : Char) (s : Str) (hc : isDigit c = true) :
    matchHere (c :: s) reDigits = some ((s.takeWhile isDigit).length + 1) := by
  simp [reDigits, matchHere_cons, matchStep, hc, matchHere_star_single]

/-- The array that `match(/^\d+/)` returns is never `null` behind the guard
`/^\d+\./.test(...)`. -/
theorem jsMatch_of_test (t : Str) (h : test reNumbered t = true) :
    ∃ m, jsMatch t reDigits = some m := by
  obtain ⟨c, s, rfl, hc⟩ := test_reNumbered_head t h
  exact ⟨_, by rw [jsMatch, matchHere_reDigits c s hc]; rfl⟩

theorem formatLine_total (l : Str) :
    ∃ ob : Option Block, ∀ i, formatLine l i = Except.ok (ob.map (Element.mk i)) := by
  unfold formatLine
  simp only []
  split_ifs with h1 h2 h3 h4
  · exact ⟨some _, fun i => rfl⟩
  · obtain ⟨m, hm⟩ := jsMatch_of_test _ h2
    rw [hm]
    exact ⟨some _, fun i => rfl⟩
  · obtain ⟨fs, hfs⟩ := split_total reBold (trim l)
    rw [hfs]
    exact ⟨some _, fun i => rfl⟩
  · exact ⟨some _, fun i => rfl⟩
  · exact ⟨none, fun i => rfl⟩

theorem formatLine_eq (l : Str) (i : Nat) :
    formatLine l i = Except.ok ((lineBlock l).map (Element.mk i)) := by
  obtain ⟨ob, hob⟩ := formatLine_total l
  have h0 : lineBlock l = ob := by
    unfold lineBlock
    rw [hob 0]
    cases ob <;> rfl
  rw [h0, hob i]

theorem mapLines_eq (ls : List Str) :
    ∀ i, ∃ es, mapLines ls i = Except.ok es ∧
      (es.filterMap id).map Element.block = ls.filterMap lineBlock := by
  induction ls with
  | nil => intro i; exact ⟨[], rfl, rfl⟩
  | cons l ls ih =>
    intro i
    obtain ⟨es, hes, hmap⟩ := ih (i + 1)
    refine ⟨(lineBlock l).map (Element.mk i) :: es, ?_, ?_⟩
    · unfold mapLines
      rw [formatLine_eq, hes]
      rfl
    · cases hb : lineBlock l with
      | none => simpa [List.filterMap_cons, hb] using hmap
      | some b => simpa [List.filterMap_cons, hb] using hmap

theorem splitLines_ne_nil (s : Str) : splitLines s ≠ [] := by
  cases s with
  | nil => simp [splitLines]
  | cons c s =>
    unfold splitLines
    split_ifs
    · simp
    · split <;> simp

/-- The blocks of a text are the blocks of its lines, in order. -/
theorem format_eq (text : Str) :
    format text = Except.ok ((splitLines text).filterMap lineBlock) := by
  unfold format formatResponse
  by_cases h : text = []
  · subst h
    rfl
  · obtain ⟨es, hes, hmap⟩ := mapLines_eq (splitLines text) 0
    rw [if_neg h, hes, ← hmap]
    rfl

theorem splitLines_append (a b : Str) :
    splitLines (a ++ '\n' :: b) = splitLines a ++ splitLines b := by
  induction a with
  | nil => simp [splitLines]
  | cons c a ih =>
    by_cases hc : c = '\n'
    · simp [splitLines, hc, ih]
    · rw [List.cons_append]
      simp only [splitLines, if_neg hc, ih]
      cases hsa : splitLines a with
      | nil => exact absurd hsa (splitLines_ne_nil a)
      | cons l ls => rfl

theorem splitLines_single (l : Str) (h : '\n' ∉ l) : splitLines l = [l] := by
  induction l with
  | nil => rfl
  | cons c l ih =>
    have hc : c ≠ '\n' := fun e => h (e ▸ List.mem_cons_self _ _)
    have hl : '\n' ∉ l := fun m => h (List.mem_cons_of_mem _ m)
    simp only [splitLines, if_neg hc, ih hl]

theorem format_single (l : Str) (h : '\n' ∉ l) :
    format l = Except.ok (lineBlock l).toList := by
  rw [format_eq, splitLines_single l h]
  cases hb : lineBlock l <;> simp [List.filterMap_cons, hb]

/-! ## The branches of the callback -/

theorem lineBlock_bullet (l : Str)
    (h : (startsWith (trim l) ['*'] || startsWith (trim l) ['-']) = true) :
    lineBlock l = some (Block.BulletItem (trim (substring (trim l) 1))) := by
  unfold lineBlock formatLine
  simp only []
  rw [if_pos h]
  rfl

theorem lineBlock_numbered (l m : Str)
    (h1 : (startsWith (trim l) ['*'] || startsWith (trim l) ['-']) = false)
    (h2 : test reNumbered (trim l) = true) (hm : jsMatch (trim l) reDigits = some m) :
    lineBlock l = some (Block.NumberedItem m (replaceEmpty (trim l) reNumberPrefix)) := by
  unfold lineBlock formatLine
  simp only []
  rw [if_neg (by simp [h1]), if_pos h2, hm]
  rfl

theorem lineBlock_bold (l : Str) (parts : List Str)
    (h1 : (startsWith (trim l) ['*'] || startsWith (trim l) ['-']) = false)
    (h2 : test reNumbered (trim l) = false)
    (h3 : includes (trim l) ['*', '*'] = true) (hp : split (trim l) reBold = some parts) :
    lineBlock l = some (Block.RichParagraph (parts.map partSpan)) := by
  unfold lineBlock formatLine
  simp only []
  rw [if_neg (by simp [h1]), if_neg (by simp [h2]), if_pos h3, hp]
  rfl

theorem lineBlock_plain (l : Str)
    (h1 : (startsWith (trim l) ['*'] || startsWith (trim l) ['-']) = false)
    (h2 : test reNumbered (trim l) = false)
    (h3 : includes (trim l) ['*', '*'] = false) (h4 : trim l ≠ []) :
    lineBlock l = some (Block.PlainParagraph (trim l)) := by
  unfold lineBlock formatLine
  simp only []
  rw [if_neg (by simp [h1]), if_neg (by simp [h2]), if_neg (by simp [h3]), if_pos h4]
  rfl

theorem lineBlock_blank (l : Str) (h : trim l = []) : lineBlock l = none := by
  unfold lineBlock formatLine
  simp only []
  rw [h]
  rfl

/-- A line yields a block exactly when it is not blank. -/
theorem lineBlock_isSome (l : Str) : (lineBlock l).isSome = decide (trim l ≠ []) := by
  by_cases h : trim l = []
  · simp [lineBlock_blank l h, h]
  · simp only [h, ne_eq, not_false_eq_true, decide_True]
    cases h1 : (startsWith (trim l) ['*'] || startsWith (trim l) ['-']) with
    | true => rw [lineBlock_bullet l h1]; rfl
    | false =>
      cases h2 : test reNumbered (trim l) with
      | true =>
        obtain ⟨m, hm⟩ := jsMatch_of_test _ h2
        rw [lineBlock_numbered l m h1 h2 hm]; rfl
      | false =>
        cases h3 : includes (trim l) ['*', '*'] with
        | true =>
          obtain ⟨fs, hfs⟩ := split_total reBold (trim l)
          rw [lineBlock_bold l fs h1 h2 h3 hfs]; rfl
        | false => rw [lineBlock_plain l h1 h2 h3 h]; rfl

theorem length_filterMap_eq {α β : Type} (f : α → Option β) (l : List α) :
    (l.filterMap f).length = (l.filter (fun a => (f a).isSome)).length := by
  induction l with
  | nil => rfl
  | cons a l ih =>
    cases h : f a with
    | none => simp [List.filterMap_cons, List.filter_cons, h, ih]
    | some b => simp [List.filterMap_cons, List.filter_cons, h, ih]

/-! ## The tests of the callback, read on the characters of the line -/

theorem startsWith_single (t : Str) (a : Char) :
    startsWith t [a] = true ↔ t.head? = some a := by
  cases t with
  | nil => simp [startsWith, List.isPrefixOf]
  | cons c s =>
    simp only [startsWith, List.isPrefixOf, Bool.and_true, beq_iff_eq, List.head?_cons,
      Option.some.injEq]
    exact eq_comm

theorem includes_iff (s p : Str) : includes s p = true ↔ p <:+: s := by
  induction s with
  | nil => simp [includes, List.isPrefixOf_iff_prefix]
  | cons c s ih =>
    rw [includes, Bool.or_eq_true, ih, List.isPrefixOf_iff_prefix, List.infix_cons_iff]

theorem matchHere_star_one (p q : Char → Bool) (s : Str) (k : Nat)
    (h : matchHere s [Item.star p, Item.one q] = some k) :
    ∃ d c r, s = d ++ c :: r ∧ (∀ x ∈ d, p x = true) ∧ q c = true := by
  induction s generalizing k with
  | nil => simp [matchHere, matchEnd] at h
  | cons a s ih =>
    rw [matchHere_cons] at h
    have hone : ∀ j, matchStep a (matchHere s) [Item.one q] = some j → q a = true := by
      intro j hj
      by_contra hq
      simp [matchStep, hq] at hj
    by_cases hp : p a = true
    · cases hn : matchHere s [Item.star p, Item.one q] with
      | some j =>
        obtain ⟨d, c, r, hs, hd, hq⟩ := ih j hn
        refine ⟨a :: d, c, r, by rw [hs]; rfl, ?_, hq⟩
        intro x hx
        rcases List.mem_cons.mp hx with rfl | hx
        · exact hp
        · exact hd x hx
      | none =>
        simp only [matchStep, hp, hn, if_true] at h
        exact ⟨[], a, s, rfl, by simp, hone _ h⟩
    · simp only [matchStep, hp] at h
      exact ⟨[], a, s, rfl, by simp, hone _ h⟩

/-- A line passes `/^\d+\./` only if it is a non-empty run of digits, a period and
a rest. -/
theorem test_reNumbered_elim (t : Str) (h : test reNumbered t = true) :
    ∃ d r, d ≠ [] ∧ (∀ c ∈ d, isDigit c = true) ∧ t = d ++ '.' :: r := by
  obtain ⟨a, s, rfl, ha⟩ := test_reNumbered_head t h
  cases hm : matchHere s [Item.star isDigit, lit '.'] with
  | none => simp [test, reNumbered, matchHere_cons, matchStep, ha, hm] at h
  | some k =>
    obtain ⟨d, c, r, hs, hd, hq⟩ := matchHere_star_one isDigit _ s k hm
    have hc : c = '.' := by simpa using hq
    subst hc
    refine ⟨a :: d, r, by simp, ?_, by rw [hs]; rfl⟩
    intro x hx
    rcases List.mem_cons.mp hx with rfl | hx
    · exact ha
    · exact hd x hx

theorem not_mem_of_mem_splitLines (s : Str) : ∀ l ∈ splitLines s, '\n' ∉ l := by
  induction s with
  | nil => simp [splitLines]
  | cons c s ih =>
    by_cases hc : c = '\n'
    · intro l hl
      simp only [splitLines, if_pos hc, List.mem_cons] at hl
      rcases hl with rfl | hl
      · simp
      · exact ih l hl
    · intro l hl
      simp only [splitLines, if_neg hc] at hl
      cases hsa : splitLines s with
      | nil => exact absurd hsa (splitLines_ne_nil s)
      | cons l0 ls =>
        rw [hsa] at hl ih
        rcases List.mem_cons.mp hl with rfl | hl
        · intro hm
          rcases List.mem_cons.mp hm with h | h
          · exact hc h.symm
          · exact ih l0 (List.mem_cons_self _ _) h
        · exact ih l (List.mem_cons_of_mem _ hl)

theorem filterMap_eq_flatten {α β : Type} (f : α → Option β) (l : List α) :
    l.filterMap f = (l.map (fun a => (f a).toList)).flatten := by
  induction l with
  | nil => rfl
  | cons a l ih => cases h : f a <;> simp [List.filterMap_cons, h, ih]

theorem takeWhile_run (p : Char → Bool) (d r : Str) (x : Char)
    (hd : ∀ c ∈ d, p c = true) (hx : p x = false) :
    (d ++ x :: r).takeWhile p = d := by
  induction d with
  | nil => simp [List.takeWhile, hx]
  | cons c d ih =>
    have hc : p c = true := hd c (List.mem_cons_self _ _)
    simp [List.takeWhile, hc, ih (fun y hy => hd y (List.mem_cons_of_mem _ hy))]

theorem dropWhile_fixed (p : Char → Bool) (l : Str) (h : l.dropWhile p = l) :
    ∀ c, l.head? = some c → p c = false := by
  intro c hc
  cases l with
  | nil => simp at hc
  | cons a l =>
    simp only [List.head?_cons, Option.some.injEq] at hc
    subst hc
    by_contra hp
    have hp2 : p a = true := by simpa using hp
    have hlen := congrArg List.length h
    rw [List.dropWhile_cons_of_pos hp2] at hlen
    have := (List.dropWhile_sublist p (l := l)).length_le
    simp at hlen
    omega

theorem dropWhile_of_head (p : Char → Bool) (l : Str)
    (h : ∀ c, l.head? = some c → p c = false) : l.dropWhile p = l := by
  cases l with
  | nil => rfl
  | cons a l =>
    have := h a rfl
    simp [List.dropWhile, this]

theorem trimEnd_trim (s : Str) : trimEnd (trim s) = trim s := by
  simp [trim, trimEnd, List.dropWhile_idempotent]

/-- A suffix of a string without trailing white space has none either. -/
theorem trimEnd_suffix (u v : Str) (h : trimEnd (u ++ v) = u ++ v) : trimEnd v = v := by
  have h1 : (u ++ v).reverse.dropWhile isSpace = (u ++ v).reverse := by
    have := congrArg List.reverse h
    simpa [trimEnd] using this
  have h2 : v.reverse.dropWhile isSpace = v.reverse := by
    apply dropWhile_of_head
    intro c hc
    apply dropWhile_fixed isSpace _ h1 c
    rw [List.reverse_append]
    cases hv : v.reverse with
    | nil => rw [hv] at hc; simp at hc
    | cons a l => rw [hv] at hc; simpa using hc
  rw [trimEnd, h2, List.reverse_reverse]

/-! ## The bold pattern and the split -/

theorem matchHere_reBold_head (c : Char) (s : Str) (hc : c ≠ '*') :
    matchHere (c :: s) reBold = none := by
  simp [reBold, matchHere_cons, matchStep, lit, hc]

/-- The lazy run stops at the first `**` when no `*` and no line terminator comes
before it. -/
theorem matchHere_lazy_run (b q : Str)
    (hb : ∀ c ∈ b, c ≠ '*' ∧ isLineTerminator c = false) :
    matchHere (b ++ '*' :: '*' :: q) [Item.lazyStar isDot, lit '*', lit '*'] =
      some (b.length + 2) := by
  induction b with
  | nil => simp [matchHere_cons, matchStep, lit, matchHere_nil]
  | cons c b ih =>
    have hc := hb c (List.mem_cons_self _ _)
    have ih2 := ih (fun x hx => hb x (List.mem_cons_of_mem _ hx))
    rw [List.cons_append, matchHere_cons]
    simp only [lit] at ih2 ⊢
    simp [matchStep, hc.1, isDot, hc.2, ih2]

theorem matchHere_reBold_run (b q : Str)
    (hb : ∀ c ∈ b, c ≠ '*' ∧ isLineTerminator c = false) :
    matchHere ('*' :: '*' :: (b ++ '*' :: '*' :: q)) reBold = some (b.length + 3 + 1) := by
  have h := matchHere_lazy_run b q hb
  rw [reBold, matchHere_cons]
  simp only [lit] at h ⊢
  simp only [matchStep, beq_self_eq_true, if_true, matchHere_cons]
  rw [h]
  rfl

theorem foldr_consHead (p f : Str) (fs : List Str) :
    p.foldr consHead (f :: fs) = (p ++ f) :: fs := by
  induction p with
  | nil => rfl
  | cons c p ih => rw [List.foldr_cons, ih]; rfl

/-- Characters other than `*` in front of a text join its first fragment. -/
theorem split_run (p rest : Str) (hp : ∀ c ∈ p, c ≠ '*') :
    split (p ++ rest) reBold = (split rest reBold).map (fun fs => p.foldr consHead fs) := by
  induction p with
  | nil => simp
  | cons c p ih =>
    rw [List.cons_append,
      split_cons_nomatch reBold c _ (matchHere_reBold_head c _ (hp c (List.mem_cons_self _ _))),
      ih (fun x hx => hp x (List.mem_cons_of_mem _ hx))]
    cases split rest reBold <;> rfl

theorem split_plain (q : Str) (hq : ∀ c ∈ q, c ≠ '*') : split q reBold = some [q] := by
  have h := split_run q [] hq
  rw [List.append_nil, split_nil] at h
  rw [h, Option.map_some', foldr_consHead, List.append_nil]

theorem partSpan_plain (f : Str) (h : f.head? ≠ some '*') : partSpan f = Span.PlainText f := by
  have hs : startsWith f ['*', '*'] = false := by
    cases f with
    | nil => rfl
    | cons c f =>
      have hc : ¬ c = '*' := by simpa using h
      have hc2 : ¬ '*' = c := fun e => hc e.symm
      simp [startsWith, List.isPrefixOf, hc2]
  simp [partSpan, hs]

theorem slice_bold (b : Str) : slice ('*' :: '*' :: (b ++ ['*', '*'])) 2 (-2) = b := by
  have h1 : relIndex ('*' :: '*' :: (b ++ ['*', '*'])).length (-2) = b.length + 2 := by
    simp [relIndex]; omega
  have h2 : relIndex ('*' :: '*' :: (b ++ ['*', '*'])).length 2 = 2 := by
    simp [relIndex]
  rw [slice, h1, h2]
  simp [List.take_append_eq_append_take]

theorem partSpan_bold (b : Str) :
    partSpan ('*' :: '*' :: (b ++ ['*', '*'])) = Span.Bold b := by
  have hs : startsWith ('*' :: '*' :: (b ++ ['*', '*'])) ['*', '*'] = true := by
    simp [startsWith, List.isPrefixOf]
  have he : endsWith ('*' :: '*' :: (b ++ ['*', '*'])) ['*', '*'] = true := by
    rw [endsWith, List.isSuffixOf_iff_suffix]
    exact ⟨'*' :: '*' :: b, by simp⟩
  simp [partSpan, hs, he, slice_bold]

/-- A run of digits and a period at the head of `p ++ "*" ++ x` lies inside `p`. -/
theorem digits_dot_inside (d : Str) (hd : ∀ c ∈ d, isDigit c = true) :
    ∀ (p x r : Str), p ++ '*' :: x = d ++ '.' :: r → ∃ r0, p = d ++ '.' :: r0 := by
  induction d with
  | nil =>
    intro p x r h
    cases p with
    | nil => exact absurd (List.head_eq_of_cons_eq h) (by decide)
    | cons c p =>
      have hc : c = '.' := List.head_eq_of_cons_eq h
      exact ⟨p, by rw [hc]; rfl⟩
  | cons a d ih =>
    intro p x r h
    cases p with
    | nil =>
      have ha : '*' = a := List.head_eq_of_cons_eq h
      have := hd a (List.mem_cons_self _ _)
      rw [← ha] at this
      exact absurd this (by decide)
    | cons c p =>
      have hc : c = a := List.head_eq_of_cons_eq h
      have ht : p ++ '*' :: x = d ++ '.' :: r := List.tail_eq_of_cons_eq h
      obtain ⟨r0, hr0⟩ := ih (fun y hy => hd y (List.mem_cons_of_mem _ hy)) p x r ht
      exact ⟨r0, by rw [hc, hr0]; rfl⟩

theorem trim_fixed (s : Str) (h1 : ∀ c, s.head? = some c → isSpace c = false)
    (h2 : ∀ c, s.getLast? = some c → isSpace c = false) : trim s = s := by
  rw [trim, trimStart, dropWhile_of_head isSpace s h1, trimEnd,
    dropWhile_of_head isSpace s.reverse (by rw [List.head?_reverse]; exact h2),
    List.reverse_reverse]

theorem length_consHead (c : Char) (fs : List Str) (h : fs.length % 2 = 1) :
    (consHead c fs).length % 2 = 1 := by
  cases fs with
  | nil => rfl
  | cons f fs => simpa [consHead] using h

/-- The split yields an odd number of fragments: a text, then a match and a text
for every place where the pattern matched. -/
theorem splitFuel_length_odd (re : List Item) (n : Nat) :
    ∀ (s : Str) (fs : List Str), splitFuel re n s = some fs → fs.length % 2 = 1 := by
  induction n with
  | zero =>
    intro s fs h
    cases s with
    | nil =>
      simp only [splitFuel, Option.some.injEq] at h
      rw [← h]; rfl
    | cons c s => simp [splitFuel] at h
  | succ n ih =>
    intro s fs h
    cases s with
    | nil =>
      simp only [splitFuel, Option.some.injEq] at h
      rw [← h]; rfl
    | cons c s =>
      unfold splitFuel at h
      split at h
      · rename_i k _
        cases hrec : splitFuel re n (s.drop k) with
        | none => simp [hrec] at h
        | some fs0 =>
          simp only [hrec, Option.map_some', Option.some.injEq] at h
          have := ih _ _ hrec
          rw [← h]
          simp only [List.length_cons]
          omega
      · cases hrec : splitFuel re n s with
        | none => simp [hrec] at h
        | some fs0 =>
          simp only [hrec, Option.map_some', Option.some.injEq] at h
          rw [← h]
          exact length_consHead c fs0 (ih _ _ hrec)

/-- A line that is formatted as a rich paragraph went through the bold branch. -/
theorem lineBlock_rich_inv (l : Str) (spans : List Span)
    (h : lineBlock l = some (Block.RichParagraph spans)) :
    (startsWith (trim l) ['*'] || startsWith (trim l) ['-']) = false ∧
    test reNumbered (trim l) = false ∧ includes (trim l) ['*', '*'] = true ∧
    ∃ parts, split (trim l) reBold = some parts ∧ spans = parts.map partSpan := by
  cases h1 : (startsWith (trim l) ['*'] || startsWith (trim l) ['-']) with
  | true => rw [lineBlock_bullet l h1] at h; simp at h
  | false =>
    cases h2 : test reNumbered (trim l) with
    | true =>
      obtain ⟨m, hm⟩ := jsMatch_of_test _ h2
      rw [lineBlock_numbered l m h1 h2 hm] at h; simp at h
    | false =>
      cases h3 : includes (trim l) ['*', '*'] with
      | true =>
        obtain ⟨fs, hfs⟩ := split_total reBold (trim l)
        rw [lineBlock_bold l fs h1 h2 h3 hfs] at h
        simp only [Option.some.injEq, Block.RichParagraph.injEq] at h
        exact ⟨rfl, rfl, rfl, fs, hfs, h.symm⟩
      | false =>
        by_cases h4 : trim l = []
        · rw [lineBlock_blank l h4] at h; simp at h
        · rw [lineBlock_plain l h1 h2 h3 h4] at h; simp at h

/-- Every block of a text is the block of one of its lines. -/
theorem mem_format (text : Str) (bs : List Block) (b : Block)
    (h : format text = Except.ok bs) (hb : b ∈ bs) :
    ∃ l ∈ splitLines text, lineBlock l = some b := by
  rw [format_eq] at h
  have hbs : bs = (splitLines text).filterMap lineBlock := by
    injection h with h; exact h.symm
  rw [hbs, List.mem_filterMap] at hb
  exact hb

/-! ## The claims -/

/-- C1: line independence. Formatting `a ++ "\n" ++ b` gives the blocks of `a`
followed by the blocks of `b`; hence the blocks of a text are the concatenation, in
order, of what each of its lines yields when formatted on its own, and a line
yields at most one block. -/
theorem format_line_independent :
    (∀ a b : Str, ∃ x y, format a = Except.ok x ∧ format b = Except.ok y ∧
      format (a ++ ['\n'] ++ b) = Except.ok (x ++ y)) ∧
    (∀ text : Str, ∃ bss : List (List Block),
      List.Forall₂ (fun l bs => format l = Except.ok bs ∧ bs.length ≤ 1)
        (splitLines text) bss ∧
      format text = Except.ok bss.flatten) := by
  constructor
  · intro a b
    refine ⟨_, _, format_eq a, format_eq b, ?_⟩
    rw [format_eq, List.append_assoc, List.singleton_append, splitLines_append,
      List.filterMap_append]
  · intro text
    refine ⟨(splitLines text).map (fun l => (lineBlock l).toList), ?_, ?_⟩
    · rw [List.forall₂_map_right_iff, List.forall₂_same]
      intro l hl
      refine ⟨format_single l (not_mem_of_mem_splitLines text l hl), ?_⟩
      cases lineBlock l <;> simp
    · rw [format_eq, filterMap_eq_flatten]

/-- C2: the number of blocks is the number of lines that are not blank, hence at
most the number of lines; the empty text and an all-blank text yield no block, and
`"line one\n\nline two"` yields two. -/
theorem format_length :
    (∀ text : Str, ∃ bs, format text = Except.ok bs ∧
      bs.length = ((splitLines text).filter (fun l => decide (trim l ≠ []))).length ∧
      bs.length ≤ (splitLines text).length) ∧
    format "".toList = Except.ok [] ∧
    format "   \n\n".toList = Except.ok [] ∧
    format "line one\n\nline two".toList =
      Except.ok [Block.PlainParagraph "line one".toList,
        Block.PlainParagraph "line two".toList] := by
  refine ⟨?_, rfl, rfl, rfl⟩
  intro text
  refine ⟨_, format_eq text, ?_, List.length_filterMap_le _ _⟩
  rw [length_filterMap_eq]
  congr 2
  funext l
  exact lineBlock_isSome l

/-- C3: a single line whose trimmed form starts with `*` or `-` is a bullet item
whose text is the trimmed form without its first character, trimmed again; nothing
else in the line is looked at. -/
theorem format_bullet (line : Str) (hline : '\n' ∉ line)
    (h : (trim line).head? = some '*' ∨ (trim line).head? = some '-') :
    format line = Except.ok [Block.BulletItem (trim ((trim line).drop 1))] := by
  rw [format_single line hline, lineBlock_bullet line]
  · rfl
  · rw [Bool.or_eq_true, startsWith_single, startsWith_single]
    exact h

/-- The bullet rule on `* item one`, on `- item one` and on a line whose rest looks
like a bold run and a numbered item. -/
theorem format_bullet_witness :
    format "* item one".toList = Except.ok [Block.BulletItem "item one".toList] ∧
    format "- item one".toList = Except.ok [Block.BulletItem "item one".toList] ∧
    format "  ***1. x**  ".toList = Except.ok [Block.BulletItem "**1. x**".toList] :=
  ⟨format_bullet "* item one".toList (by decide) (Or.inl rfl),
   format_bullet "- item one".toList (by decide) (Or.inr rfl),
   format_bullet "  ***1. x**  ".toList (by decide) (Or.inl rfl)⟩

/-- C8: a single line whose trimmed form is not empty, starts with neither `*` nor
`-` nor a run of digits followed by a period, and does not contain `**`, is a plain
paragraph whose text is the trimmed form. -/
theorem format_plain (line : Str) (hline : '\n' ∉ line) (hne : trim line ≠ [])
    (hstar : (trim line).head? ≠ some '*') (hdash : (trim line).head? ≠ some '-')
    (hnum : ∀ d r : Str, d ≠ [] → (∀ c ∈ d, isDigit c = true) → trim line ≠ d ++ '.' :: r)
    (hbold : ¬ ['*', '*'] <:+: trim line) :
    format line = Except.ok [Block.PlainParagraph (trim line)] := by
  rw [format_single line hline, lineBlock_plain line ?_ ?_ ?_ hne]
  · rfl
  · rw [Bool.or_eq_false_iff, ← Bool.not_eq_true, ← Bool.not_eq_true, startsWith_single,
      startsWith_single]
    exact ⟨hstar, hdash⟩
  · rw [← Bool.not_eq_true]
    intro ht
    obtain ⟨d, r, hd, hdig, ht⟩ := test_reNumbered_elim _ ht
    exact hnum d r hd hdig ht
  · rw [← Bool.not_eq_true, includes_iff]
    exact hbold

/-- C9: `formatResponse` returns a value on every string; in particular the array
of `match(/^\d+/)` exists whenever the line passed `/^\d+\./`, so `[0]` is never
taken of `null`. -/
theorem formatResponse_total :
    (∀ text : Str, ∃ r, formatResponse text = Except.ok r) ∧
    (∀ (line : Str) (index : Nat), ∃ e, formatLine line index = Except.ok e) ∧
    (∀ t : Str, test reNumbered t = true →
      ∃ d, jsMatch t reDigits = some d ∧ d ≠ []) := by
  refine ⟨?_, ?_, ?_⟩
  · intro text
    by_cases h : text = []
    · exact ⟨Rendered.emptyText, by rw [formatResponse, if_pos h]; rfl⟩
    · obtain ⟨es, hes, -⟩ := mapLines_eq (splitLines text) 0
      exact ⟨Rendered.elements (es.filterMap id), by rw [formatResponse, if_neg h, hes]; rfl⟩
  · intro line index
    exact ⟨_, formatLine_eq line index⟩
  · intro t ht
    obtain ⟨c, s, rfl, hc⟩ := test_reNumbered_head t ht
    exact ⟨_, by rw [jsMatch, matchHere_reDigits c s hc]; rfl, by simp⟩

/-- The paragraph rule on `plain line`. -/
theorem format_plain_witness :
    format "plain line".toList = Except.ok [Block.PlainParagraph "plain line".toList] :=
  format_plain "plain line".toList (by decide) (by decide) (by decide) (by decide)
    (by
      intro d r hd hdig heq
      cases d with
      | nil => exact hd rfl
      | cons c d =>
        have h1 : 'p' = c := List.head_eq_of_cons_eq heq
        have h2 := hdig c (List.mem_cons_self _ _)
        rw [← h1] at h2
        exact absurd h2 (by decide))
    (by rw [← includes_iff]; decide)

/-- C4: a single line whose trimmed form is a non-empty run of digits `d`, a period
and a rest `r` is a numbered item with index `d` and text `r` without its leading
white space; `d` is the maximal leading run of digits of the trimmed form, the text
has no white space at either end, and index, period, the white space removed and
text give back the trimmed form. -/
theorem format_numbered (line d r : Str) (hline : '\n' ∉ line) (hd : d ≠ [])
    (hdig : ∀ c ∈ d, isDigit c = true) (ht : trim line = d ++ '.' :: r) :
    format line = Except.ok [Block.NumberedItem d (r.dropWhile isSpace)] ∧
    d = (trim line).takeWhile isDigit ∧
    trim (r.dropWhile isSpace) = r.dropWhile isSpace ∧
    d ++ ['.'] ++ r.takeWhile isSpace ++ r.dropWhile isSpace = trim line := by
  have htake : (d ++ '.' :: r).takeWhile isDigit = d :=
    takeWhile_run isDigit d r '.' hdig (by decide)
  obtain ⟨a, d', rfl⟩ := List.exists_cons_of_ne_nil hd
  have ha : isDigit a = true := hdig a (List.mem_cons_self _ _)
  have hd' : ∀ c ∈ d', isDigit c = true := fun c hc => hdig c (List.mem_cons_of_mem _ hc)
  have htake' : (d' ++ '.' :: r).takeWhile isDigit = d' :=
    takeWhile_run isDigit d' r '.' hd' (by decide)
  refine ⟨?_, by rw [ht, htake], ?_, ?_⟩
  · have hbul : (startsWith (trim line) ['*'] || startsWith (trim line) ['-']) = false := by
      rw [ht, Bool.or_eq_false_iff, ← Bool.not_eq_true, ← Bool.not_eq_true,
        startsWith_single, startsWith_single]
      simp only [List.cons_append, List.head?_cons, Option.some.injEq]
      constructor <;> intro h <;> rw [h] at ha <;> exact absurd ha (by decide)
    have htest : test reNumbered (trim line) = true := by
      have h1 : matchHere ('.' :: r) [Item.star isDigit, lit '.'] = some 1 := by
        simp [matchHere_cons, matchStep, lit, matchHere_nil, isDigit]
      have h2 := matchHere_star_run isDigit [lit '.'] d' ('.' :: r) 1 hd' h1
      rw [ht, test, reNumbered, List.cons_append, matchHere_cons]
      simp [matchStep, ha, h2]
    have hmatch : jsMatch (trim line) reDigits = some (a :: d') := by
      rw [ht, jsMatch, List.cons_append, matchHere_reDigits a _ ha, htake']
      simp
    have hrep : replaceEmpty (trim line) reNumberPrefix = r.dropWhile isSpace := by
      have h1 : matchHere ('.' :: r) [Item.star isDigit, lit '.', Item.star isSpace] =
          some ((r.takeWhile isSpace).length + 1) := by
        simp [matchHere_cons, matchStep, lit, matchHere_star_single, isDigit]
      have h2 := matchHere_star_run isDigit [lit '.', Item.star isSpace] d' ('.' :: r) _ hd' h1
      have h3 : matchHere (trim line) reNumberPrefix =
          some ((r.takeWhile isSpace).length + 1 + d'.length + 1) := by
        rw [ht, reNumberPrefix, List.cons_append, matchHere_cons]
        simp [matchStep, ha, h2]
      rw [replaceEmpty, h3, ht]
      have h4 : (r.takeWhile isSpace).length + 1 + d'.length + 1 =
          (a :: d' ++ ['.']).length + (r.takeWhile isSpace).length := by
        simp; omega
      have h5 : a :: d' ++ '.' :: r =
          (a :: d' ++ ['.']) ++ (r.takeWhile isSpace ++ r.dropWhile isSpace) := by
        rw [List.takeWhile_append_dropWhile]; simp
      show List.drop _ (a :: d' ++ '.' :: r) = _
      rw [h4, h5, List.drop_append, List.drop_left]
    rw [format_single line hline, lineBlock_numbered line _ hbul htest hmatch, hrep]
    rfl
  · have hend : trimEnd (r.dropWhile isSpace) = r.dropWhile isSpace := by
      apply trimEnd_suffix (a :: d' ++ ['.'] ++ r.takeWhile isSpace)
      have h5 : a :: d' ++ ['.'] ++ r.takeWhile isSpace ++ r.dropWhile isSpace = trim line := by
        rw [ht, List.append_assoc, List.takeWhile_append_dropWhile]; simp
      rw [h5, trimEnd_trim]
    rw [trim, trimStart, List.dropWhile_idempotent, hend]
  · rw [ht, List.append_assoc, List.takeWhile_append_dropWhile]; simp

/-- The numbered rule on `1. first`, on an index with leading zeros, and on the two
lines `1. first` and `2. second`. -/
theorem format_numbered_witness :
    (format "1. first".toList = Except.ok [Block.NumberedItem "1".toList "first".toList] ∧
      "1".toList = (trim "1. first".toList).takeWhile isDigit ∧
      trim "first".toList = "first".toList ∧
      "1".toList ++ ['.'] ++ " ".toList ++ "first".toList = trim "1. first".toList) ∧
    format "  007.5 apples ".toList =
      Except.ok [Block.NumberedItem "007".toList "5 apples".toList] ∧
    format "1. first\n2. second".toList =
      Except.ok [Block.NumberedItem "1".toList "first".toList,
        Block.NumberedItem "2".toList "second".toList] :=
  ⟨format_numbered "1. first".toList "1".toList " first".toList (by decide) (by decide)
      (by decide) rfl,
    (format_numbered "  007.5 apples ".toList "007".toList "5 apples".toList (by decide)
      (by decide) (by decide) rfl).1,
    rfl⟩

/-- C5: for non-empty `p`, `b`, `q` without `*` and without line terminator, `p`
starting with neither white space nor `-` nor a run of digits and a period, and `q`
not ending with white space, the line `p**b**q` is one rich paragraph with the spans
plain `p`, bold `b`, plain `q`. -/
theorem format_bold (p b q : Str) (hp : p ≠ []) (_hb : b ≠ []) (hq : q ≠ [])
    (hpc : ∀ c ∈ p, c ≠ '*' ∧ isLineTerminator c = false)
    (hbc : ∀ c ∈ b, c ≠ '*' ∧ isLineTerminator c = false)
    (hqc : ∀ c ∈ q, c ≠ '*' ∧ isLineTerminator c = false)
    (hhead : ∀ c, p.head? = some c → isSpace c = false ∧ c ≠ '-')
    (hnum : ∀ d r : Str, d ≠ [] → (∀ c ∈ d, isDigit c = true) → p ≠ d ++ '.' :: r)
    (hlast : ∀ c, q.getLast? = some c → isSpace c = false) :
    format (p ++ ['*', '*'] ++ b ++ ['*', '*'] ++ q) =
      Except.ok [Block.RichParagraph [Span.PlainText p, Span.Bold b, Span.PlainText q]] := by
  have hnorm : p ++ ['*', '*'] ++ b ++ ['*', '*'] ++ q =
      p ++ '*' :: '*' :: (b ++ '*' :: '*' :: q) := by simp
  rw [hnorm]
  obtain ⟨a, p', rfl⟩ := List.exists_cons_of_ne_nil hp
  have ha := hpc a (List.mem_cons_self _ _)
  have hline : '\n' ∉ a :: p' ++ '*' :: '*' :: (b ++ '*' :: '*' :: q) := by
    intro hm
    simp only [List.mem_append, List.mem_cons] at hm
    rcases hm with (h | h) | h | h | h | h | h | h
    · rw [← h] at ha
      exact absurd ha.2 (by decide)
    · exact absurd (hpc _ (List.mem_cons_of_mem _ h)).2 (by decide)
    · exact absurd h (by decide)
    · exact absurd h (by decide)
    · exact absurd (hbc _ h).2 (by decide)
    · exact absurd h (by decide)
    · exact absurd h (by decide)
    · exact absurd (hqc _ h).2 (by decide)
  have htrim : trim (a :: p' ++ '*' :: '*' :: (b ++ '*' :: '*' :: q)) =
      a :: p' ++ '*' :: '*' :: (b ++ '*' :: '*' :: q) := by
    apply trim_fixed
    · intro c hc
      exact (hhead c (by simpa using hc)).1
    · intro c hc
      have e : a :: p' ++ '*' :: '*' :: (b ++ '*' :: '*' :: q) =
          (a :: p' ++ '*' :: '*' :: (b ++ ['*', '*'])) ++ q := by simp
      rw [e, List.getLast?_append_of_ne_nil _ hq] at hc
      exact hlast c hc
  have hbul : (startsWith (a :: p' ++ '*' :: '*' :: (b ++ '*' :: '*' :: q)) ['*'] ||
      startsWith (a :: p' ++ '*' :: '*' :: (b ++ '*' :: '*' :: q)) ['-']) = false := by
    rw [Bool.or_eq_false_iff, ← Bool.not_eq_true, ← Bool.not_eq_true, startsWith_single,
      startsWith_single]
    simp only [List.cons_append, List.head?_cons, Option.some.injEq]
    exact ⟨ha.1, (hhead a rfl).2⟩
  have htest : test reNumbered (a :: p' ++ '*' :: '*' :: (b ++ '*' :: '*' :: q)) = false := by
    rw [← Bool.not_eq_true]
    intro ht
    obtain ⟨d, r, hd, hdig, heq⟩ := test_reNumbered_elim _ ht
    obtain ⟨r0, hr0⟩ := digits_dot_inside d hdig (a :: p') _ r heq
    exact hnum d r0 hd hdig hr0
  have hinc : includes (a :: p' ++ '*' :: '*' :: (b ++ '*' :: '*' :: q)) ['*', '*'] = true := by
    rw [includes_iff]
    exact ⟨a :: p', b ++ '*' :: '*' :: q, by simp⟩
  have hsplit : split (a :: p' ++ '*' :: '*' :: (b ++ '*' :: '*' :: q)) reBold =
      some [a :: p', '*' :: '*' :: (b ++ ['*', '*']), q] := by
    rw [split_run (a :: p') _ (fun c hc => (hpc c hc).1),
      split_cons_match reBold '*' _ (b.length + 3) (matchHere_reBold_run b q hbc)]
    have hdrop : ('*' :: (b ++ '*' :: '*' :: q)).drop (b.length + 3) = q := by
      have e : '*' :: (b ++ '*' :: '*' :: q) = ('*' :: b ++ ['*', '*']) ++ q := by simp
      rw [e, List.drop_left' (by simp)]
    have htake : ('*' :: '*' :: (b ++ '*' :: '*' :: q)).take (b.length + 3 + 1) =
        '*' :: '*' :: (b ++ ['*', '*']) := by
      have e : '*' :: '*' :: (b ++ '*' :: '*' :: q) = ('*' :: '*' :: (b ++ ['*', '*'])) ++ q := by
        simp
      rw [e, List.take_left' (by simp)]
    rw [hdrop, htake, split_plain q (fun c hc => (hqc c hc).1)]
    simp only [Option.map_some', foldr_consHead, List.append_nil]
  rw [format_single _ hline, lineBlock_bold _ _ (by rw [htrim]; exact hbul)
    (by rw [htrim]; exact htest) (by rw [htrim]; exact hinc) (by rw [htrim]; exact hsplit)]
  have h1 : partSpan (a :: p') = Span.PlainText (a :: p') :=
    partSpan_plain _ (by simpa using ha.1)
  have h3 : partSpan q = Span.PlainText q := by
    apply partSpan_plain
    intro h
    exact (hqc '*' (List.mem_of_mem_head? h)).1 rfl
  simp only [List.map_cons, List.map_nil, h1, partSpan_bold, h3, Option.toList]

/-- The bold rule on `This is **bold** text`. -/
theorem format_bold_witness :
    format "This is **bold** text".toList =
      Except.ok [Block.RichParagraph [Span.PlainText "This is ".toList,
        Span.Bold "bold".toList, Span.PlainText " text".toList]] :=
  format_bold "This is ".toList "bold".toList " text".toList (by decide) (by decide)
    (by decide) (by decide) (by decide) (by decide) (by decide)
    (by
      intro d r hd hdig heq
      cases d with
      | nil => exact hd rfl
      | cons c d =>
        have h1 : 'T' = c := List.head_eq_of_cons_eq heq
        have h2 := hdig c (List.mem_cons_self _ _)
        rw [← h1] at h2
        exact absurd h2 (by decide))
    (by decide)

/-- C6, as the code has it: no fragment is dropped. A rich paragraph has one span
for every fragment of the split, an odd number of them, and only the first is
never empty: it is a plain span with a non-empty text that does not start with
`*`, because a line that starts with `*` is a bullet item. -/
theorem rich_paragraph_spans (text : Str) (bs : List Block) (spans : List Span)
    (h : format text = Except.ok bs) (hmem : Block.RichParagraph spans ∈ bs) :
    spans.length % 2 = 1 ∧
    ∃ t rest, spans = Span.PlainText t :: rest ∧ t ≠ [] ∧ t.head? ≠ some '*' := by
  obtain ⟨l, -, hl⟩ := mem_format text bs _ h hmem
  obtain ⟨hbul, -, hinc, parts, hsplit, rfl⟩ := lineBlock_rich_inv l spans hl
  refine ⟨by rw [List.length_map]; exact splitFuel_length_odd _ _ _ _ hsplit, ?_⟩
  cases ht : trim l with
  | nil => rw [ht] at hinc; simp [includes, List.isPrefixOf] at hinc
  | cons c s =>
    rw [ht] at hbul hsplit
    have hc : c ≠ '*' := by
      intro e
      rw [e] at hbul
      simp [startsWith, List.isPrefixOf] at hbul
    rw [split_cons_nomatch reBold c s (matchHere_reBold_head c s hc)] at hsplit
    obtain ⟨fs, hfs⟩ := split_total reBold s
    rw [hfs, Option.map_some', Option.some.injEq] at hsplit
    rw [← hsplit]
    cases fs with
    | nil =>
      exact ⟨[c], [], by simp [consHead, partSpan_plain, hc], by simp, by simpa using hc⟩
    | cons f fs =>
      exact ⟨c :: f, fs.map partSpan, by simp [consHead, partSpan_plain, hc], by simp,
        by simpa using hc⟩

/-- The spans of `a **b**`: three, the first one plain and not empty. -/
theorem rich_paragraph_spans_witness :
    format "a **b**".toList =
      Except.ok [Block.RichParagraph
        [Span.PlainText "a ".toList, Span.Bold "b".toList, Span.PlainText []]] ∧
    [Span.PlainText "a ".toList, Span.Bold "b".toList, Span.PlainText []].length % 2 = 1 ∧
    ∃ t rest, [Span.PlainText "a ".toList, Span.Bold "b".toList, Span.PlainText []] =
      Span.PlainText t :: rest ∧ t ≠ [] ∧ t.head? ≠ some '*' :=
  ⟨rfl, rich_paragraph_spans "a **b**".toList _ _ rfl (List.mem_singleton.mpr rfl)⟩

/-- C6 as stated fails: a rich paragraph has a plain span with empty text when the
line ends on a bold run and when two bold runs are adjacent, and a bold span with
empty text for `****`. -/
theorem empty_span_counterexample :
    format "a **b**".toList =
      Except.ok [Block.RichParagraph
        [Span.PlainText "a ".toList, Span.Bold "b".toList, Span.PlainText []]] ∧
    format "a **b****c** d".toList =
      Except.ok [Block.RichParagraph
        [Span.PlainText "a ".toList, Span.Bold "b".toList, Span.PlainText [],
          Span.Bold "c".toList, Span.PlainText " d".toList]] ∧
    format "a **** d".toList =
      Except.ok [Block.RichParagraph
        [Span.PlainText "a ".toList, Span.Bold [], Span.PlainText " d".toList]] :=
  ⟨rfl, rfl, rfl⟩

/-- C7 on the line `a**b****`: the fragments are `a`, `**b**` and `**`; the last
one starts and ends with `**`, so it becomes a bold span, and `slice(2, -2)` leaves
it no text. The spans read back as `a**b******`, not as the line. -/
theorem bold_strip_overlap :
    trim "a**b****".toList = "a**b****".toList ∧
    split "a**b****".toList reBold = some ["a".toList, "**b**".toList, "**".toList] ∧
    partSpan "**".toList = Span.Bold [] ∧
    format "a**b****".toList =
      Except.ok [Block.RichParagraph
        [Span.PlainText "a".toList, Span.Bold "b".toList, Span.Bold []]] ∧
    spansSource [Span.PlainText "a".toList, Span.Bold "b".toList, Span.Bold []] =
      "a**b******".toList ∧
    spansSource [Span.PlainText "a".toList, Span.Bold "b".toList, Span.Bold []] ≠
      trim "a**b****".toList :=
  ⟨rfl, rfl, rfl, rfl, rfl, by decide⟩

/-- C10 on the line `a**b****\r**\r**`: the pattern does not match behind `**b**`,
because `.` does not match a carriage return, so the rest is one fragment; it starts
and ends with `**` and becomes a bold span whose text contains `**`. -/
theorem bold_text_keeps_markers :
    split "a**b****\r**\r**".toList reBold =
      some ["a".toList, "**b**".toList, "**\r**\r**".toList] ∧
    format "a**b****\r**\r**".toList =
      Except.ok [Block.RichParagraph
        [Span.PlainText "a".toList, Span.Bold "b".toList, Span.Bold "\r**\r".toList]] ∧
    includes "\r**\r".toList "**".toList = true :=
  ⟨rfl, rfl, rfl⟩

/-! ## The bold branch away from the overlapping pairs -/

/-- A fragment that starts and ends with `**` is `**`, `***`, or a text between
two pairs. -/
theorem starts_ends_cases (f : Str) (hs : startsWith f ['*', '*'] = true)
    (he : endsWith f ['*', '*'] = true) :
    f = ['*', '*'] ∨ f = ['*', '*', '*'] ∨ ∃ y, f = '*' :: '*' :: (y ++ ['*', '*']) := by
  rw [startsWith, List.isPrefixOf_iff_prefix] at hs
  rw [endsWith, List.isSuffixOf_iff_suffix] at he
  obtain ⟨g, rfl⟩ := hs
  obtain ⟨h, hh⟩ := he
  rcases List.eq_nil_or_concat g with rfl | ⟨g1, z, rfl⟩
  · exact Or.inl rfl
  · rw [List.concat_eq_append] at hh ⊢
    rcases List.eq_nil_or_concat g1 with rfl | ⟨g2, w, rfl⟩
    · have e : h ++ ['*', '*'] = ['*'] ++ ['*', z] := by rw [hh]; rfl
      have := (List.append_inj' e rfl).2
      simp only [List.cons.injEq, and_true, true_and] at this
      rw [← this]
      exact Or.inr (Or.inl rfl)
    · rw [List.concat_eq_append] at hh ⊢
      have e : h ++ ['*', '*'] = (['*', '*'] ++ g2) ++ [w, z] := by rw [hh]; simp
      have := (List.append_inj' e rfl).2
      simp only [List.cons.injEq, and_true] at this
      rw [← this.1, ← this.2]
      exact Or.inr (Or.inr ⟨g2, by simp⟩)

/-- Away from `**` and `***`, a span reads back as its fragment. -/
theorem source_partSpan (f : Str) (h2 : f ≠ ['*', '*']) (h3 : f ≠ ['*', '*', '*']) :
    (partSpan f).source = f := by
  by_cases hc : (startsWith f ['*', '*'] && endsWith f ['*', '*']) = true
  · have hc2 := hc
    rw [Bool.and_eq_true] at hc2
    rcases starts_ends_cases f hc2.1 hc2.2 with e | e | ⟨y, rfl⟩
    · exact absurd e h2
    · exact absurd e h3
    · rw [partSpan, if_pos hc, slice_bold]
      simp [Span.source]
  · rw [partSpan, if_neg hc]
    rfl

/-- The fragments of the split, put together, are the text. -/
theorem flatten_splitFuel (re : List Item) (n : Nat) :
    ∀ (s : Str) (fs : List Str), splitFuel re n s = some fs → fs.flatten = s := by
  induction n with
  | zero =>
    intro s fs h
    cases s with
    | nil =>
      simp only [splitFuel, Option.some.injEq] at h
      rw [← h]; rfl
    | cons c s => simp [splitFuel] at h
  | succ n ih =>
    intro s fs h
    cases s with
    | nil =>
      simp only [splitFuel, Option.some.injEq] at h
      rw [← h]; rfl
    | cons c s =>
      unfold splitFuel at h
      split at h
      · rename_i k _
        cases hrec : splitFuel re n (s.drop k) with
        | none => simp [hrec] at h
        | some fs0 =>
          simp only [hrec, Option.map_some', Option.some.injEq] at h
          rw [← h]
          simp [ih _ _ hrec, List.take_append_drop]
      · cases hrec : splitFuel re n s with
        | none => simp [hrec] at h
        | some fs0 =>
          simp only [hrec, Option.map_some', Option.some.injEq] at h
          have hfl := ih _ _ hrec
          rw [← h]
          cases fs0 with
          | nil => simpa [consHead] using hfl
          | cons f fs1 => simpa [consHead] using hfl

theorem spansSource_map (parts : List Str)
    (h : ∀ f ∈ parts, f ≠ ['*', '*'] ∧ f ≠ ['*', '*', '*']) :
    spansSource (parts.map partSpan) = parts.flatten := by
  induction parts with
  | nil => rfl
  | cons f fs ih =>
    have hf := h f (List.mem_cons_self _ _)
    have ih2 := ih (fun g hg => h g (List.mem_cons_of_mem _ hg))
    rw [spansSource] at ih2 ⊢
    rw [List.map_cons, List.map_cons, List.flatten_cons, List.flatten_cons, ih2,
      source_partSpan f hf.1 hf.2]

/-- The stripping of the marker pairs is lossless on every line none of whose
fragments is `**` or `***`: the spans of its rich paragraph read back as the
trimmed line. -/
theorem spansSource_rich (line : Str) (spans : List Span) (parts : List Str)
    (h : lineBlock line = some (Block.RichParagraph spans))
    (hparts : split (trim line) reBold = some parts)
    (hfrag : ∀ f ∈ parts, f ≠ ['*', '*'] ∧ f ≠ ['*', '*', '*']) :
    spansSource spans = trim line := by
  obtain ⟨-, -, -, parts0, hsplit, rfl⟩ := lineBlock_rich_inv line spans h
  rw [hparts, Option.some.injEq] at hsplit
  subst hsplit
  rw [spansSource_map parts hfrag]
  exact flatten_splitFuel _ _ _ _ hparts

/-! ## The bold branch on lines without CR, LS and PS -/

theorem matchHere_pair (r : Str) : matchHere ('*' :: '*' :: r) [lit '*', lit '*'] = some 2 := by
  simp [matchHere_cons, matchStep, lit, matchHere_nil]

theorem matchHere_pair_elim (s : Str) (k : Nat)
    (h : matchHere s [lit '*', lit '*'] = some k) : ∃ r, s = '*' :: '*' :: r := by
  cases s with
  | nil => simp [matchHere, matchEnd, lit] at h
  | cons c s =>
    cases s with
    | nil =>
      by_cases hc : c = '*' <;> simp [matchHere_cons, matchStep, lit, hc, matchHere, matchEnd] at h
    | cons c2 s =>
      by_cases hc : c = '*'
      · by_cases hc2 : c2 = '*'
        · exact ⟨s, by rw [hc, hc2]⟩
        · simp [matchHere_cons, matchStep, lit, hc, hc2] at h
      · simp [matchHere_cons, matchStep, lit, hc] at h

theorem matchHere_lazy_cons (c : Char) (s : Str) :
    matchHere (c :: s) [Item.lazyStar isDot, lit '*', lit '*'] =
      match matchHere (c :: s) [lit '*', lit '*'] with
      | some k => some k
      | none =>
        if isDot c then (matchHere s [Item.lazyStar isDot, lit '*', lit '*']).map (· + 1)
        else none := rfl

/-- What the lazy run takes ends at the first `**`, so it contains none. -/
theorem matchHere_lazy_shape (s : Str) :
    ∀ n, matchHere s [Item.lazyStar isDot, lit '*', lit '*'] = some n →
      ∃ x r, s = x ++ '*' :: '*' :: r ∧ n = x.length + 2 ∧ ¬ ['*', '*'] <:+: x := by
  induction s with
  | nil => intro n h; simp [matchHere, matchEnd, lit] at h
  | cons c s ih =>
    intro n h
    rw [matchHere_lazy_cons] at h
    cases hfirst : matchHere (c :: s) [lit '*', lit '*'] with
    | some k =>
      obtain ⟨r, hr⟩ := matchHere_pair_elim _ k hfirst
      rw [hr, matchHere_pair] at h
      simp only [Option.some.injEq] at h
      exact ⟨[], r, hr, by simp [← h], by simp⟩
    | none =>
      rw [hfirst] at h
      by_cases hdot : isDot c = true
      · simp only [hdot, if_true] at h
        cases hrec : matchHere s [Item.lazyStar isDot, lit '*', lit '*'] with
        | none => simp [hrec] at h
        | some n0 =>
          simp only [hrec, Option.map_some', Option.some.injEq] at h
          obtain ⟨x, r, hs, hn, hx⟩ := ih n0 hrec
          refine ⟨c :: x, r, by rw [hs]; rfl, by simp [← h, hn], ?_⟩
          rw [List.infix_cons_iff]
          rintro (⟨t, ht⟩ | hin)
          · cases x with
            | nil => simp at ht
            | cons x0 x1 =>
              simp only [List.cons_append, List.nil_append, List.cons.injEq] at ht
              rw [hs, ← ht.1, ← ht.2.1] at hfirst
              rw [List.cons_append, matchHere_pair] at hfirst
              simp at hfirst
          · exact hx hin
      · simp [hdot] at h

/-- The lazy run reaches a `**` that only characters matched by `.` come before. -/
theorem matchHere_lazy_isSome (y u : Str) (hy : ∀ c ∈ y, isDot c = true) :
    (matchHere (y ++ '*' :: '*' :: u) [Item.lazyStar isDot, lit '*', lit '*']).isSome = true := by
  induction y with
  | nil =>
    rw [List.nil_append, matchHere_lazy_cons, matchHere_pair]
    rfl
  | cons c y ih =>
    rw [List.cons_append, matchHere_lazy_cons]
    cases hfirst : matchHere (c :: (y ++ '*' :: '*' :: u)) [lit '*', lit '*'] with
    | some k => rfl
    | none =>
      have hc := hy c (List.mem_cons_self _ _)
      have ih2 := ih (fun x hx => hy x (List.mem_cons_of_mem _ hx))
      simp only [hc, if_true]
      cases hrec : matchHere (y ++ '*' :: '*' :: u) [Item.lazyStar isDot, lit '*', lit '*'] with
      | none => rw [hrec] at ih2; simp at ih2
      | some n => rfl

theorem matchHere_reBold_cons (r : Str) :
    matchHere ('*' :: '*' :: r) reBold =
      (matchHere r [Item.lazyStar isDot, lit '*', lit '*']).map (· + 2) := by
  rw [reBold, matchHere_cons]
  simp only [lit, matchStep, beq_self_eq_true, if_true, matchHere_cons]
  cases matchHere r [Item.lazyStar isDot, Item.one fun x => x == '*', Item.one fun x => x == '*'] <;>
    rfl

/-- A match of the bold pattern is a text without `**` between two `**` pairs. -/
theorem matchHere_reBold_shape (s : Str) (n : Nat) (h : matchHere s reBold = some n) :
    ∃ x r, s = '*' :: '*' :: (x ++ '*' :: '*' :: r) ∧ n = x.length + 4 ∧
      ¬ ['*', '*'] <:+: x := by
  cases s with
  | nil => simp [matchHere, matchEnd, reBold, lit] at h
  | cons c s =>
    by_cases hc : c = '*'
    · cases s with
      | nil => simp [matchHere_cons, matchStep, reBold, lit, hc, matchHere, matchEnd] at h
      | cons c2 s =>
        by_cases hc2 : c2 = '*'
        · rw [hc, hc2, matchHere_reBold_cons] at h
          cases hrec : matchHere s [Item.lazyStar isDot, lit '*', lit '*'] with
          | none => simp [hrec] at h
          | some n0 =>
            simp only [hrec, Option.map_some', Option.some.injEq] at h
            obtain ⟨x, r, hs, hn, hx⟩ := matchHere_lazy_shape s n0 hrec
            exact ⟨x, r, by rw [hc, hc2, hs], by omega, hx⟩
        · simp [matchHere_cons, matchStep, reBold, lit, hc, hc2] at h
    · rw [matchHere_reBold_head c s hc] at h
      simp at h

theorem matchHere_reBold_isSome (y u : Str) (hy : ∀ c ∈ y, isDot c = true) :
    (matchHere ('*' :: '*' :: (y ++ '*' :: '*' :: u)) reBold).isSome = true := by
  rw [matchHere_reBold_cons]
  have := matchHere_lazy_isSome y u hy
  cases hrec : matchHere (y ++ '*' :: '*' :: u) [Item.lazyStar isDot, lit '*', lit '*'] with
  | none => rw [hrec] at this; simp at this
  | some n => rfl

theorem partSpan_bold_elim (f t : Str) (h : partSpan f = Span.Bold t) :
    startsWith f ['*', '*'] = true ∧ endsWith f ['*', '*'] = true ∧ t = slice f 2 (-2) := by
  by_cases hc : (startsWith f ['*', '*'] && endsWith f ['*', '*']) = true
  · rw [partSpan, if_pos hc] at h
    rw [Bool.and_eq_true] at hc
    exact ⟨hc.1, hc.2, by injection h with h; exact h.symm⟩
  · rw [partSpan, if_neg hc] at h
    simp at h

/-- A fragment at whose head the pattern does not match gives no bold span with `**`
in its text. -/
theorem partSpan_of_nomatch (g u : Str) (hdot : ∀ c ∈ g, isDot c = true)
    (hno : matchHere (g ++ u) reBold = none) :
    ∀ t, partSpan g = Span.Bold t → ¬ ['*', '*'] <:+: t := by
  intro t ht
  obtain ⟨hs, he, rfl⟩ := partSpan_bold_elim g t ht
  rcases starts_ends_cases g hs he with e | e | ⟨y, e⟩
  · rw [e]; decide
  · rw [e]; decide
  · exfalso
    have hy : ∀ c ∈ y, isDot c = true := by
      intro c hc
      apply hdot c
      rw [e]
      simp [hc]
    have hsome := matchHere_reBold_isSome y u hy
    have e2 : g ++ u = '*' :: '*' :: (y ++ '*' :: '*' :: u) := by rw [e]; simp
    rw [e2] at hno
    rw [hno] at hsome
    simp at hsome

/-- The fragments of a text without CR, LS and PS: the pattern matches nowhere inside
the first one, and no other one gives a bold span with `**` in its text. -/
theorem splitFuel_fragments (n : Nat) :
    ∀ (s : Str) (fs : List Str), (∀ c ∈ s, isDot c = true) → splitFuel reBold n s = some fs →
      ∃ f0 rest u, fs = f0 :: rest ∧ s = f0 ++ u ∧
        (∀ a b, f0 = a ++ b → b ≠ [] → matchHere (b ++ u) reBold = none) ∧
        ∀ f ∈ rest, ∀ t, partSpan f = Span.Bold t → ¬ ['*', '*'] <:+: t := by
  induction n with
  | zero =>
    intro s fs _ h
    cases s with
    | nil =>
      simp only [splitFuel, Option.some.injEq] at h
      exact ⟨[], [], [], h.symm, rfl, by simp, by simp⟩
    | cons c s => simp [splitFuel] at h
  | succ n ih =>
    intro s fs hdot h
    cases s with
    | nil =>
      simp only [splitFuel, Option.some.injEq] at h
      exact ⟨[], [], [], h.symm, rfl, by simp, by simp⟩
    | cons c s =>
      unfold splitFuel at h
      split at h
      · rename_i k hk
        have hdot2 : ∀ x ∈ s.drop k, isDot x = true :=
          fun x hx => hdot x (List.mem_cons_of_mem _ (List.mem_of_mem_drop hx))
        cases hrec : splitFuel reBold n (s.drop k) with
        | none => simp [hrec] at h
        | some fs0 =>
          simp only [hrec, Option.map_some', Option.some.injEq] at h
          obtain ⟨f0, rest, u, hfs0, hs0, hno, hrest⟩ := ih _ _ hdot2 hrec
          obtain ⟨x, r, hshape, hlen, hx⟩ := matchHere_reBold_shape _ _ hk
          have htake : (c :: s).take (k + 1) = '*' :: '*' :: (x ++ ['*', '*']) := by
            have e : '*' :: '*' :: (x ++ '*' :: '*' :: r) =
                ('*' :: '*' :: (x ++ ['*', '*'])) ++ r := by simp
            rw [hshape, e, List.take_left' (by simp; omega)]
          refine ⟨[], (c :: s).take (k + 1) :: fs0, c :: s, h.symm, rfl, ?_, ?_⟩
          · intro a b hab hb
            have := List.append_eq_nil.mp hab.symm
            exact absurd this.2 hb
          · intro f hf t ht
            rcases List.mem_cons.mp hf with rfl | hf
            · rw [htake, partSpan_bold] at ht
              injection ht with ht
              rw [← ht]
              exact hx
            · rw [hfs0] at hf
              rcases List.mem_cons.mp hf with rfl | hf
              · cases hf0 : f with
                | nil => rw [hf0] at ht; simp [partSpan, startsWith, List.isPrefixOf] at ht
                | cons a0 f1 =>
                  refine partSpan_of_nomatch f u ?_ (hno [] f rfl (by rw [hf0]; simp)) t ht
                  intro y hy
                  apply hdot2 y
                  rw [hs0]
                  exact List.mem_append_left _ hy
              · exact hrest f hf t ht
      · rename_i hk
        have hdot2 : ∀ x ∈ s, isDot x = true := fun x hx => hdot x (List.mem_cons_of_mem _ hx)
        have hnone : matchHere (c :: s) reBold = none := by
          cases hm : matchHere (c :: s) reBold with
          | none => rfl
          | some j =>
            obtain ⟨x, r, -, hlen, -⟩ := matchHere_reBold_shape _ _ hm
            exact absurd hm (by rw [hlen]; exact hk _)
        cases hrec : splitFuel reBold n s with
        | none => simp [hrec] at h
        | some fs0 =>
          simp only [hrec, Option.map_some', Option.some.injEq] at h
          obtain ⟨f0, rest, u, hfs0, hs0, hno, hrest⟩ := ih _ _ hdot2 hrec
          refine ⟨c :: f0, rest, u, by rw [← h, hfs0]; rfl, by rw [hs0]; rfl, ?_, hrest⟩
          intro a b hab hb
          cases a with
          | nil =>
            rw [List.nil_append] at hab
            rw [← hab, List.cons_append, ← hs0]
            exact hnone
          | cons a0 a1 =>
            rw [List.cons_append] at hab
            exact hno a1 b (List.tail_eq_of_cons_eq hab) hb

theorem mem_of_mem_splitLines (s : Str) : ∀ l ∈ splitLines s, ∀ c ∈ l, c ∈ s := by
  induction s with
  | nil => simp [splitLines]
  | cons a s ih =>
    by_cases ha : a = '\n'
    · intro l hl c hc
      simp only [splitLines, if_pos ha, List.mem_cons] at hl
      rcases hl with rfl | hl
      · simp at hc
      · exact List.mem_cons_of_mem _ (ih l hl c hc)
    · intro l hl c hc
      simp only [splitLines, if_neg ha] at hl
      cases hsa : splitLines s with
      | nil => exact absurd hsa (splitLines_ne_nil s)
      | cons l0 ls =>
        rw [hsa] at hl ih
        rcases List.mem_cons.mp hl with rfl | hl
        · rcases List.mem_cons.mp hc with rfl | hc
          · exact List.mem_cons_self _ _
          · exact List.mem_cons_of_mem _ (ih l0 (List.mem_cons_self _ _) c hc)
        · exact List.mem_cons_of_mem _ (ih l (List.mem_cons_of_mem _ hl) c hc)

theorem mem_of_mem_trim (l : Str) (c : Char) (h : c ∈ trim l) : c ∈ l := by
  rw [trim, trimEnd, trimStart, List.mem_reverse] at h
  have h1 := List.dropWhile_subset isSpace h
  rw [List.mem_reverse] at h1
  exact List.dropWhile_subset isSpace h1

/-- On a text whose only line terminators are line feeds, no bold span has `**` in
its text. -/
theorem bold_text_without_markers (text : Str) (bs : List Block) (spans : List Span) (t : Str)
    (hlt : ∀ c ∈ text, c = '\n' ∨ isLineTerminator c = false)
    (h : format text = Except.ok bs) (hmem : Block.RichParagraph spans ∈ bs)
    (ht : Span.Bold t ∈ spans) : ¬ ['*', '*'] <:+: t := by
  obtain ⟨l, hl, hblock⟩ := mem_format text bs _ h hmem
  obtain ⟨-, -, -, parts, hsplit, rfl⟩ := lineBlock_rich_inv l spans hblock
  have hdot : ∀ c ∈ trim l, isDot c = true := by
    intro c hc
    have hcl := mem_of_mem_trim l c hc
    rcases hlt c (mem_of_mem_splitLines text l hl c hcl) with e | e
    · exact absurd (e ▸ hcl) (not_mem_of_mem_splitLines text l hl)
    · simp [isDot, e]
  obtain ⟨f0, rest, u, hfs, hs0, hno, hrest⟩ := splitFuel_fragments _ _ _ hdot hsplit
  obtain ⟨f, hf, hft⟩ := List.mem_map.mp ht
  rw [hfs] at hf
  rcases List.mem_cons.mp hf with rfl | hf
  · cases hf0 : f with
    | nil => rw [hf0] at hft; simp [partSpan, startsWith, List.isPrefixOf] at hft
    | cons a0 f1 =>
      refine partSpan_of_nomatch f u ?_ (hno [] f rfl (by rw [hf0]; simp)) t hft
      intro y hy
      apply hdot y
      rw [hs0]
      exact List.mem_append_left _ hy
  · exact hrest f hf t hft

end App
